import Mathlib

/-!
Verification of the scale-resolution and value-extraction engine of
`pdfParser.py` (the Naive PDF Number Parser).

Strings are modelled as `List Char`; Python `Decimal` values as `ℚ`
(the program only ever builds finite decimal fractions, which embed
exactly into `ℚ`); page coordinates (Python floats) as exact `ℚ`.
Each definition is a direct translation of the corresponding Python
function or expression; regular-expression matching is rendered as an
explicit left-to-right backtracking scanner with Python `re` semantics
(leftmost match, alternatives in written order, greedy quantifiers).
-/

namespace Pdf

/-- Python `\s` / `str.strip` whitespace, restricted to ASCII. -/
def pyIsSpace (c : Char) : Bool :=
  c = ' ' || c = '\t' || c = '\n' || c = '\r' || c = '\x0b' || c = '\x0c'

/-- Python regex `\w` word character, restricted to ASCII. -/
def isWordChar (c : Char) : Bool :=
  c.isAlphanum || c = '_'

/-- `str.lower`, character-wise. -/
def toLowerL (s : List Char) : List Char :=
  s.map Char.toLower

/-- `str.strip()`: drop leading and trailing whitespace. -/
def stripL (s : List Char) : List Char :=
  (((s.dropWhile pyIsSpace).reverse).dropWhile pyIsSpace).reverse

/-- The `MULTIPLIERS` dictionary, in insertion (iteration) order. -/
def MULTIPLIERS : List (List Char × ℚ) :=
  [("thousand".data, 1000), ("thousands".data, 1000),
   ("million".data, 1000000), ("millions".data, 1000000),
   ("billion".data, 1000000000), ("billions".data, 1000000000),
   ("trillion".data, 1000000000000), ("trillions".data, 1000000000000)]

/-- Association-list lookup on string keys. -/
def assocQ (k : List Char) : List (List Char × ℚ) → Option ℚ
  | [] => none
  | (a, v) :: t => if a = k then some v else assocQ k t

/-- `word.lower() in MULTIPLIERS` / `MULTIPLIERS[word.lower()]`. -/
def lookupMult (w : List Char) : Option ℚ :=
  assocQ (toLowerL w) MULTIPLIERS

/-- The `ROW_EXCLUSION_KEYWORDS` set. -/
def ROW_EXCLUSION_KEYWORDS : List (List Char) :=
  ["percentage".data, "percent".data, "%".data, "number".data, "rate".data, "ratio".data]

/-- `clean_number_string`: remove `$` and `,`, then strip whitespace. -/
def clean_number_string (s : List Char) : List Char :=
  stripL (s.filter (fun c => !(c == '$' || c == ',')))

/-- Value of a digit string, most significant first. -/
def digitsToNat (s : List Char) : Nat :=
  s.foldl (fun a c => a * 10 + (c.toNat - 48)) 0

/-- Split an optional leading sign off a numeric string, returning the
sign as a factor. -/
def splitSign (s : List Char) : ℚ × List Char :=
  match s with
  | '+' :: t => (1, t)
  | '-' :: t => (-1, t)
  | _ => (1, s)

/-- Split an optional fractional part `.digits` off the remainder after
the integer digits: the fraction digits and what follows them. -/
def fracSplit (s : List Char) : List Char × List Char :=
  match s with
  | '.' :: t => (t.takeWhile Char.isDigit, t.drop (t.takeWhile Char.isDigit).length)
  | _ => ([], s)

/-- Modelled from the Python standard library: the `Decimal` string
constructor, restricted to finite numeric strings
(`[ws] [sign] digits [. digits] [exponent] [ws]`, underscores ignored);
the special values `Infinity`/`NaN` are not modelled, they are
unreachable from this program's inputs.  Returns `none` exactly when
the constructor would raise `InvalidOperation`. -/
def parseDecimal (s : List Char) : Option ℚ :=
  let s1 := (stripL s).filter (fun c => !(c == '_'))
  let sgn : ℚ := (splitSign s1).1
  let s2 : List Char := (splitSign s1).2
  let ip := s2.takeWhile Char.isDigit
  let s3 := s2.drop ip.length
  let fp : List Char := (fracSplit s3).1
  let s4 : List Char := (fracSplit s3).2
  if ip = [] ∧ fp = [] then none
  else
    let coeff : ℚ := (digitsToNat ip : ℚ) + (digitsToNat fp : ℚ) / ((10 : ℚ) ^ fp.length)
    match s4 with
    | [] => some (sgn * coeff)
    | e :: t =>
      if e == 'e' || e == 'E' then
        let esgn : Int := match t with
          | '-' :: _ => -1
          | _ => 1
        let t2 : List Char := match t with
          | '+' :: u => u
          | '-' :: u => u
          | _ => t
        let ed := t2.takeWhile Char.isDigit
        if ed = [] ∨ t2.drop ed.length ≠ [] then none
        else some (sgn * coeff * (10 : ℚ) ^ (esgn * (digitsToNat ed : Int)))
      else none

/-- `parse_value(num_str, multiplier_word, context_multiplier)`:
clean and parse the literal (parse failure is absorbed as `0`);
an adjacent multiplier word that is in the lexicon takes priority and
returns immediately; otherwise the context multiplier applies. -/
def parse_value (num_str : List Char) (multiplier_word : Option (List Char))
    (context_multiplier : ℚ) : ℚ :=
  match parseDecimal (clean_number_string num_str) with
  | none => 0
  | some base =>
    match multiplier_word with
    | some w =>
      if w ≠ [] then
        match lookupMult w with
        | some f => base * f
        | none => base * context_multiplier
      else base * context_multiplier
    | none => base * context_multiplier

/-- Case-insensitive "starts with": each pattern character must equal the
input character up to `Char.toLower` (the effect of `re.IGNORECASE`). -/
def startsWithCI : List Char → List Char → Bool
  | [], _ => true
  | _ :: _, [] => false
  | p :: ps, c :: cs => Char.toLower c = Char.toLower p && startsWithCI ps cs

/-! ### The `CONTEXT_MULTIPLIER_RE` pattern

`\(in (\w+)\) | \(\$(\w+)\) | dollars in (\w+)` with `re.IGNORECASE`,
used through `.search`: leftmost match wins, and at a given position the
three alternatives are tried in written order.  Each helper returns the
captured `\w+` group (original case) when its alternative matches at the
head of the input. -/

/-- Alternative 1: `\(in (\w+)\)`. -/
def tryPatParen (s : List Char) : Option (List Char) :=
  if startsWithCI "(in ".data s then
    let rest := s.drop 4
    let w := rest.takeWhile isWordChar
    if w ≠ [] then
      match rest.drop w.length with
      | ')' :: _ => some w
      | _ => none
    else none
  else none

/-- Alternative 2: `\(\$(\w+)\)`. -/
def tryPatDollar (s : List Char) : Option (List Char) :=
  if startsWithCI "($".data s then
    let rest := s.drop 2
    let w := rest.takeWhile isWordChar
    if w ≠ [] then
      match rest.drop w.length with
      | ')' :: _ => some w
      | _ => none
    else none
  else none

/-- Alternative 3: `dollars in (\w+)`. -/
def tryPatDollarsIn (s : List Char) : Option (List Char) :=
  if startsWithCI "dollars in ".data s then
    let w := (s.drop 11).takeWhile isWordChar
    if w ≠ [] then some w else none
  else none

/-- `CONTEXT_MULTIPLIER_RE.search`: scan left to right; at each position
try the three alternatives in order; return the first captured word. -/
def contextSearch : List Char → Option (List Char)
  | [] => none
  | c :: t =>
    match tryPatParen (c :: t) with
    | some w => some w
    | none =>
      match tryPatDollar (c :: t) with
      | some w => some w
      | none =>
        match tryPatDollarsIn (c :: t) with
        | some w => some w
        | none => contextSearch t

/-- The shared post-search step of `get_page_level_multiplier` and the
table-context block: if a match was found and its captured word is in
`MULTIPLIERS`, that factor; otherwise the default `d`. -/
def contextFactorD (s : List Char) (d : ℚ) : ℚ :=
  match contextSearch s with
  | some w =>
    match lookupMult w with
    | some f => f
    | none => d
  | none => d

/-! ### The `NUMBER_RE` pattern

`(\$?\s*(?:\d{1,3}(?:,\d{3})*|\d+)(?:\.\d+)?)\s*(thousand|million|billion|trillion)?(?=\b)`
with `re.IGNORECASE`, used through `.finditer`.  The scanner below
reproduces Python `re` backtracking: alternatives and quantifier
lengths are enumerated in the engine's preference order and the first
combination whose tail (including the `(?=\b)` lookahead) succeeds is
the match. -/

/-- A number token: group 1 (the raw literal, including any leading `$`
and whitespace) and group 2 (the optional adjacent scale word). -/
structure NumTok where
  raw : List Char
  mword : Option (List Char)
deriving DecidableEq

/-- The four inline scale words of `NUMBER_RE`, in alternation order. -/
def SCALE_WORDS : List (List Char) :=
  ["thousand".data, "million".data, "billion".data, "trillion".data]

/-- Try the scale-word alternation at the head of `s`: a word matches if
it is a case-insensitive prefix and is followed by a word boundary
(next character not a word character).  Returns the matched slice of
`s` (original case) and the remainder. -/
def tryScaleIn : List (List Char) → List Char → Option (List Char × List Char)
  | [], _ => none
  | w :: ws, s =>
    if startsWithCI w s &&
        (match s.drop w.length with
         | [] => true
         | c :: _ => !isWordChar c) then
      some (s.take w.length, s.drop w.length)
    else tryScaleIn ws s

/-- The tail `\s*(thousand|million|billion|trillion)?(?=\b)` of
`NUMBER_RE`, entered just after the numeric part (which ends in a
digit).  Returns the captured group 2 and the rest of the input after
the whole match, or `none` if every backtracking choice fails. -/
def tailMatch (s4 : List Char) : Option (Option (List Char) × List Char) :=
  let sp := s4.takeWhile pyIsSpace
  let s5 := s4.drop sp.length
  match tryScaleIn SCALE_WORDS s5 with
  | some (w, rest) => some (some w, rest)
  | none =>
    match s5 with
    | [] => some (none, s4)
    | c :: _ =>
      if isWordChar c then
        if sp = [] then none else some (none, s5)
      else some (none, s4)

/-- Length of the leading digit run. -/
def digitRun (s : List Char) : Nat :=
  (s.takeWhile Char.isDigit).length

/-- `[n, n-1, ..., 1]`: the lengths a greedy bounded quantifier tries. -/
def countdownFrom : Nat → List Nat
  | 0 => []
  | n + 1 => (n + 1) :: countdownFrom n

/-- Backtracking states of `(?:,\d{3})*`, greediest first; each entry is
(consumed characters, remaining input).  The zero-repetition state is
always last. -/
def commaRepsAux : Nat → List Char → List (List Char × List Char)
  | 0, s => [([], s)]
  | fuel + 1, s =>
    match s with
    | ',' :: t =>
      let d := t.take 3
      if d.length = 3 ∧ d.all Char.isDigit then
        (commaRepsAux fuel (t.drop 3)).map (fun p => (',' :: (d ++ p.1), p.2)) ++ [([], s)]
      else [([], s)]
    | _ => [([], s)]

/-- Backtracking states of the alternative `\d{1,3}(?:,\d{3})*`,
in engine preference order. -/
def altACands (s : List Char) : List (List Char × List Char) :=
  (countdownFrom (min 3 (digitRun s))).flatMap (fun n =>
    (commaRepsAux (s.drop n).length (s.drop n)).map (fun p => (s.take n ++ p.1, p.2)))

/-- Backtracking states of the alternative `\d+`, greediest first. -/
def altBCands (s : List Char) : List (List Char × List Char) :=
  (countdownFrom (digitRun s)).map (fun k => (s.take k, s.drop k))

/-- All integer-part states of `(?:\d{1,3}(?:,\d{3})*|\d+)`: the first
alternative's states before the second's. -/
def intCands (s : List Char) : List (List Char × List Char) :=
  altACands s ++ altBCands s

/-- Backtracking states of `(?:\.\d+)?`: with the fraction (greedy, the
digit run after the dot is maximal) before without. -/
def fracCands (s : List Char) : List (List Char × List Char) :=
  match s with
  | '.' :: t =>
    if t.takeWhile Char.isDigit = [] then [([], '.' :: t)]
    else [('.' :: t.takeWhile Char.isDigit, t.drop (t.takeWhile Char.isDigit).length),
          ([], '.' :: t)]
  | _ => [([], s)]

/-- First success of `f` over a candidate list, in order. -/
def firstSome : List α → (α → Option β) → Option β
  | [], _ => none
  | a :: as, f =>
    match f a with
    | some b => some b
    | none => firstSome as f

/-- The `\$?` prefix: consumed when present (no backtracking is needed,
since a skipped `$` can never be followed by a digit). -/
def dollarPart (s : List Char) : List Char :=
  match s with
  | '$' :: _ => ['$']
  | _ => []

/-- Attempt a `NUMBER_RE` match anchored at the head of `s`: optional
`$`, greedy `\s*`, then the first integer-part/fraction state whose
tail succeeds.  Returns the token and the input remaining after the
match. -/
def matchNumberAt (s : List Char) : Option (NumTok × List Char) :=
  let dollar : List Char := dollarPart s
  let s1 := s.drop dollar.length
  let ws1 := s1.takeWhile pyIsSpace
  let s2 := s1.drop ws1.length
  firstSome (intCands s2) (fun ic =>
    firstSome (fracCands ic.2) (fun fc =>
      match tailMatch fc.2 with
      | some (mw, rest) => some (⟨dollar ++ ws1 ++ ic.1 ++ fc.1, mw⟩, rest)
      | none => none))

/-- `NUMBER_RE.finditer`: repeatedly take the leftmost match, resuming
after each match's end (matches are never empty, every one contains a
digit).  `fuel` bounds the recursion; every step consumes at least one
character, so `s.length + 1` is always enough. -/
def finditerAux : Nat → List Char → List NumTok
  | 0, _ => []
  | fuel + 1, s =>
    match matchNumberAt s with
    | some (tok, rest) => tok :: finditerAux fuel rest
    | none =>
      match s with
      | [] => []
      | _ :: t => finditerAux fuel t

/-- All `NUMBER_RE` matches of `s`, left to right. -/
def finditerNum (s : List Char) : List NumTok :=
  finditerAux (s.length + 1) s

/-! ### Geometry and the page model -/

/-- A page word as produced by the Document Provider: text plus
bounding box (top-left origin coordinates, modelled as exact `ℚ`). -/
structure Word where
  text : List Char
  x0 : ℚ
  top : ℚ
  x1 : ℚ
  bottom : ℚ
deriving DecidableEq

/-- A detected-table bounding box `(x0, top, x1, bottom)`. -/
structure BBox where
  x0 : ℚ
  top : ℚ
  x1 : ℚ
  bottom : ℚ
deriving DecidableEq

/-- One table row: a list of optional cell strings. -/
abbrev Row := List (Option (List Char))

/-- A table grid: rows of optional cell strings. -/
abbrev TableGrid := List Row

/-- A page.  `tables` pairs each extracted grid with its detected
bounding box: the program indexes `page.find_tables()` positionally by
the grid's index in `page.extract_tables()`, an alignment the design
assumes (identical length and order); the pairing renders that
structural precondition. -/
structure Page where
  height : ℚ
  words : List Word
  tables : List (TableGrid × BBox)

/-- `is_within_bboxes`: strict-inequality overlap of the word's box
against any box of the list. -/
def is_within_bboxes (w : Word) (bs : List BBox) : Bool :=
  bs.any (fun b =>
    decide (w.x0 < b.x1 ∧ w.x1 > b.x0 ∧ w.top < b.bottom ∧ w.bottom > b.top))

/-- `" ".join`, on lists of strings. -/
def joinSpace : List (List Char) → List Char
  | [] => []
  | [x] => x
  | x :: y :: t => x ++ ' ' :: joinSpace (y :: t)

/-- The header text of a page: the space-joined texts of the words in
the top 15% of the page height, in provider order. -/
def headerText (p : Page) : List Char :=
  joinSpace ((p.words.filter (fun w => decide (w.top < p.height * (15 / 100)))).map Word.text)

/-- `get_page_level_multiplier`: context-match the header region; a
lexicon word's factor, else `1`. -/
def get_page_level_multiplier (p : Page) : ℚ :=
  if p.words = [] then 1 else contextFactorD (headerText p) 1

/-- The `nearby_text` accumulation of the table loop: every page word
whose left edge `x0` lies within the box's horizontal edges and whose
`top` (resp. `bottom`) is within 80 units of the box's `top` (resp.
`bottom`) is appended, each preceded by a space. -/
def nearbyText (ws : List Word) (b : BBox) : List Char :=
  ws.foldl (fun acc w =>
    if b.x0 ≤ w.x0 ∧ w.x0 ≤ b.x1 then
      if |w.top - b.top| < 80 ∨ |w.bottom - b.bottom| < 80 then acc ++ ' ' :: w.text
      else acc
    else acc) []

/-- The table-level context multiplier: starts at the page multiplier
and is replaced only when the nearby text context-matches a lexicon
word. -/
def tableContextMultiplier (ws : List Word) (b : BBox) (pageMult : ℚ) : ℚ :=
  contextFactorD (nearbyText ws b) pageMult

/-- Python `enumerate`, starting at `n`. -/
def enumFrom : Nat → List α → List (Nat × α)
  | _, [] => []
  | n, a :: t => (n, a) :: enumFrom (n + 1) t

/-- Whether `w` occurs at the head of `s` delimited by word boundaries
(the previous character, if any, and the character after `w` must not
be word characters); together with `containsWholeWord` this models
`re.search(r"\b" + word + r"\b", s)`. -/
def wholeWordHere (w : List Char) (prev : Option Char) (s : List Char) : Bool :=
  (match prev with
   | some c => !isWordChar c
   | none => true) &&
  (w ≠ [] && w.isPrefixOf s) &&
  (match s.drop w.length with
   | [] => true
   | c :: _ => !isWordChar c)

/-- Scan `s` for a boundary-delimited occurrence of `w`, remembering
the previous character for the leading `\b` test. -/
def containsWholeWord (w : List Char) (prev : Option Char) : List Char → Bool
  | [] => wholeWordHere w prev []
  | c :: t =>
    if wholeWordHere w prev (c :: t) then true
    else containsWholeWord w (some c) t

/-- The factor of the first `MULTIPLIERS` word found whole-word in the
lowered header-cell text, scanning the dictionary in insertion order. -/
def firstMultFactor (lt : List Char) : List (List Char × ℚ) → Option ℚ
  | [] => none
  | (w, f) :: rest =>
    if containsWholeWord w none lt then some f else firstMultFactor lt rest

/-- `column_multipliers`: per header-row cell, the first lexicon word
whole-word-contained in the lowered cell text assigns its factor to
that column; empty cells get no entry. -/
def columnMultipliers (hdr : Row) : List (Nat × ℚ) :=
  (enumFrom 0 hdr).foldl (fun acc p =>
    match p.2 with
    | none => acc
    | some t =>
      if t = [] then acc
      else
        match firstMultFactor (toLowerL t) MULTIPLIERS with
        | some f => acc ++ [(p.1, f)]
        | none => acc) []

/-- Association lookup on column indices. -/
def lookupCol (k : Nat) : List (Nat × ℚ) → Option ℚ
  | [] => none
  | (a, v) :: t => if a = k then some v else lookupCol k t

/-- Row exclusion: some keyword of `ROW_EXCLUSION_KEYWORDS` is a
substring of the lowered first cell. -/
def isSubL (pat : List Char) : List Char → Bool
  | [] => pat.isPrefixOf []
  | c :: t => if pat.isPrefixOf (c :: t) then true else isSubL pat t

/-- `is_excluded_row`: any exclusion keyword occurs in the lowered
first-cell text. -/
def isExcludedRow (t : List Char) : Bool :=
  ROW_EXCLUSION_KEYWORDS.any (fun kw => isSubL kw (toLowerL t))

/-- `column_multipliers.get(col_idx, table_mult if not is_excluded_row
else Decimal("1"))`: the effective fallback multiplier for a cell. -/
def effectiveFallback (colMults : List (Nat × ℚ)) (excl : Bool)
    (tableMult : ℚ) (col : Nat) : ℚ :=
  match lookupCol col colMults with
  | some m => m
  | none => if excl then 1 else tableMult

/-! ### The document scanner -/

/-- The running maximum: `none` is the initial `-Infinity` sentinel
state (reported as "no value found"); otherwise the maximum so far with
the 1-based page where it was first reached.  Updated on strict `>`
only. -/
def updateMax (st : Option (ℚ × Nat)) (v : ℚ) (pg : Nat) : Option (ℚ × Nat) :=
  match st with
  | none => some (v, pg)
  | some (m, p) => if v > m then some (v, pg) else some (m, p)

/-- The cells of a data row the scanner visits: none when the row is
empty or its first cell is missing or empty (`if not row or not
row[0]: continue`); otherwise the enumerated non-empty cells
(`if not cell: continue`). -/
def rowScannedCells (row : Row) : List (Nat × List Char) :=
  match row with
  | [] => []
  | none :: _ => []
  | some t :: _ =>
    if t = [] then []
    else
      (enumFrom 0 row).filterMap (fun p =>
        match p.2 with
        | none => none
        | some ct => if ct = [] then none else some (p.1, ct))

/-- Process one data row: skip it unless its first cell is non-empty;
otherwise compute the exclusion flag from the first cell and, for every
visited cell, resolve every `NUMBER_RE` token with the effective
fallback multiplier and fold it into the running maximum. -/
def processRow (colMults : List (Nat × ℚ)) (tableMult : ℚ) (pg : Nat)
    (st : Option (ℚ × Nat)) (row : Row) : Option (ℚ × Nat) :=
  match row with
  | [] => st
  | none :: _ => st
  | some t0 :: _ =>
    if t0 = [] then st
    else
      let excl := isExcludedRow t0
      (rowScannedCells row).foldl (fun s pc =>
        (finditerNum pc.2).foldl (fun s2 tok =>
          updateMax s2
            (parse_value tok.raw tok.mword (effectiveFallback colMults excl tableMult pc.1))
            pg) s) st

/-- Process one table: skip it unless it has a non-empty header row;
otherwise derive the table context multiplier and the column
multipliers and process each data row. -/
def processTable (pageWords : List Word) (pageMult : ℚ) (pg : Nat)
    (st : Option (ℚ × Nat)) (tb : TableGrid × BBox) : Option (ℚ × Nat) :=
  match tb.1 with
  | [] => st
  | hdr :: rows =>
    if hdr = [] then st
    else
      let tableMult := tableContextMultiplier pageWords tb.2 pageMult
      let colMults := columnMultipliers hdr
      rows.foldl (fun s row => processRow colMults tableMult pg s row) st

/-- The space-joined text of the page words not overlapping any
detected table box. -/
def nonTableText (p : Page) : List Char :=
  joinSpace
    ((p.words.filter (fun w => !is_within_bboxes w (p.tables.map Prod.snd))).map Word.text)

/-- Process the free text of a page: every `NUMBER_RE` token of the
non-table text is resolved with the fixed fallback multiplier `1`. -/
def processFreeText (st : Option (ℚ × Nat)) (pg : Nat) (p : Page) :
    Option (ℚ × Nat) :=
  if nonTableText p = [] then st
  else
    (finditerNum (nonTableText p)).foldl (fun s tok =>
      updateMax s (parse_value tok.raw tok.mword 1) pg) st

/-- Process one page: page multiplier, then the tables, then the free
text. -/
def processPage (st : Option (ℚ × Nat)) (pg : Nat) (p : Page) :
    Option (ℚ × Nat) :=
  let pageMult := get_page_level_multiplier p
  let st1 := p.tables.foldl (fun s tb => processTable p.words pageMult pg s tb) st
  processFreeText st1 pg p

/-- `find_highest_value_in_pdf`, on an already-extracted document:
fold the pages (1-based) into the running maximum, starting from the
`-Infinity` sentinel; `none` is the `(None, None)` "no valid numbers"
outcome. -/
def find_highest_value_in_pdf (pages : List Page) : Option (ℚ × Nat) :=
  (enumFrom 1 pages).foldl (fun st p => processPage st p.1 p.2) none

/-- Table scale as the spec's words describe it, for refinement
comparison with `tableContextMultiplier`: it collects the page words
whose whole *horizontal span* `[x0, x1]` falls within the box's left
and right edges (the code checks only the left edge `x0`), in the same
proximity band, concatenated the same way. -/
def specTableScale (ws : List Word) (b : BBox) (pageScale : ℚ) : ℚ :=
  contextFactorD
    ((ws.filter (fun w =>
      decide ((b.x0 ≤ w.x0 ∧ w.x1 ≤ b.x1) ∧
        (|w.top - b.top| < 80 ∨ |w.bottom - b.bottom| < 80)))).foldl
      (fun acc w => acc ++ ' ' :: w.text) [])
    pageScale

/-- Ordering on running-maximum states: the empty (`-Infinity`) state
is below everything; otherwise compare the recorded values. -/
def stateLE : Option (ℚ × Nat) → Option (ℚ × Nat) → Prop
  | none, _ => True
  | some _, none => False
  | some p, some q => p.1 ≤ q.1

/-- "No number token is ever found" on a page: every cell the scanner
visits (cells of data rows of tables with a non-empty header, reachable
per `rowScannedCells`) yields no `NUMBER_RE` match, and neither does
the page's non-table text. -/
def pageHasNoTokens (p : Page) : Prop :=
  (∀ tb ∈ p.tables, ∀ (hdr : Row) (rows : List Row), tb.1 = hdr :: rows → hdr ≠ [] →
    ∀ row ∈ rows, ∀ pc ∈ rowScannedCells row, finditerNum pc.2 = []) ∧
  finditerNum (nonTableText p) = []

/-! ## Helper lemmas -/

theorem assocQ_nil_key : assocQ [] MULTIPLIERS = none := by decide

theorem lookupMult_ne_nil {w : List Char} {f : ℚ} (h : lookupMult w = some f) :
    w ≠ [] := by
  intro hw
  subst hw
  simp only [lookupMult, toLowerL, List.map_nil] at h
  rw [assocQ_nil_key] at h
  exact Option.noConfusion h

theorem foldl_fix {α β : Type} (f : β → α → β) (l : List α)
    (h : ∀ a ∈ l, ∀ s, f s a = s) : ∀ s, l.foldl f s = s := by
  induction l with
  | nil => intro s; rfl
  | cons a t ih =>
    intro s
    rw [List.foldl_cons, h a (List.mem_cons_self a t), ih]
    intro b hb s'
    exact h b (List.mem_cons_of_mem a hb) s'

theorem enumFrom_mem_of_get? {α : Type} (l : List α) (n i : Nat) (a : α)
    (h : l.get? i = some a) : (n + i, a) ∈ enumFrom n l := by
  induction l generalizing n i with
  | nil => simp [List.get?] at h
  | cons x t ih =>
    cases i with
    | zero =>
      simp only [List.get?] at h
      cases h
      exact List.mem_cons_self _ _
    | succ j =>
      simp only [List.get?] at h
      have := ih (n + 1) j h
      have harith : n + 1 + j = n + (j + 1) := by omega
      rw [harith] at this
      exact List.mem_cons_of_mem _ this

theorem enumFrom_snd_mem {α : Type} {l : List α} {n : Nat} {p : Nat × α}
    (h : p ∈ enumFrom n l) : p.2 ∈ l := by
  induction l generalizing n with
  | nil => cases h
  | cons x t ih =>
    rcases List.mem_cons.mp h with h1 | h2
    · subst h1; exact List.mem_cons_self _ _
    · exact List.mem_cons_of_mem _ (ih h2)

theorem stateLE_refl : ∀ s, stateLE s s
  | none => trivial
  | some _ => le_refl _

theorem stateLE_trans : ∀ {a b c}, stateLE a b → stateLE b c → stateLE a c
  | none, _, _, _, _ => trivial
  | some _, none, _, h, _ => h.elim
  | some _, some _, none, _, h => h.elim
  | some _, some _, some _, h1, h2 => le_trans h1 h2

theorem stateLE_updateMax (s : Option (ℚ × Nat)) (v : ℚ) (pg : Nat) :
    stateLE s (updateMax s v pg) := by
  cases s with
  | none => trivial
  | some p =>
    obtain ⟨m, q⟩ := p
    simp only [updateMax]
    split
    · exact le_of_lt (by assumption)
    · exact le_refl m

theorem stateLE_foldl {α : Type} (f : Option (ℚ × Nat) → α → Option (ℚ × Nat))
    (hf : ∀ s a, stateLE s (f s a)) :
    ∀ (l : List α) s, stateLE s (l.foldl f s) := by
  intro l
  induction l with
  | nil => intro s; exact stateLE_refl s
  | cons a t ih =>
    intro s
    rw [List.foldl_cons]
    exact stateLE_trans (hf s a) (ih (f s a))

theorem stateLE_processRow (cm : List (Nat × ℚ)) (tm : ℚ) (pg : Nat)
    (s : Option (ℚ × Nat)) (row : Row) : stateLE s (processRow cm tm pg s row) := by
  cases row with
  | nil => exact stateLE_refl s
  | cons c0 rest =>
    cases c0 with
    | none => exact stateLE_refl s
    | some t0 =>
      simp only [processRow]
      split
      · exact stateLE_refl s
      · exact stateLE_foldl _
          (fun s' pc => stateLE_foldl _ (fun s2 tok => stateLE_updateMax s2 _ pg) _ s') _ s

theorem stateLE_processTable (ws : List Word) (pm : ℚ) (pg : Nat)
    (s : Option (ℚ × Nat)) (tb : TableGrid × BBox) :
    stateLE s (processTable ws pm pg s tb) := by
  rcases htb : tb.1 with _ | ⟨hdr, rows⟩
  · simp only [processTable, htb]; exact stateLE_refl s
  · simp only [processTable, htb]
    split
    · exact stateLE_refl s
    · exact stateLE_foldl _ (fun s' row => stateLE_processRow _ _ pg s' row) rows s

theorem stateLE_processFreeText (s : Option (ℚ × Nat)) (pg : Nat) (p : Page) :
    stateLE s (processFreeText s pg p) := by
  simp only [processFreeText]
  split
  · exact stateLE_refl s
  · exact stateLE_foldl _ (fun s2 tok => stateLE_updateMax s2 _ pg) _ s

/-! ## Claims -/

/-- C1: for every raw literal `L` (here: every `L` whose cleaned form
parses to `q`), every multiplier word `W` in the lexicon
(case-insensitively), and every pair of fallback multipliers `f1`,
`f2`, `parse_value` returns `q` times `W`'s factor under either
fallback: the inline word fully overrides the fallback multiplier and
is never combined with it. -/
theorem inline_word_overrides_fallback (L W : List Char) (f1 f2 fac q : ℚ)
    (hW : lookupMult W = some fac)
    (hL : parseDecimal (clean_number_string L) = some q) :
    parse_value L (some W) f1 = q * fac ∧ parse_value L (some W) f2 = q * fac := by
  have hWne : W ≠ [] := lookupMult_ne_nil hW
  constructor <;>
    · simp only [parse_value, hL]
      rw [if_pos hWne, hW]

theorem inline_word_overrides_fallback_witness :
    parse_value "1,234.5".data (some "Million".data) 55 = (2469 / 2 : ℚ) * 1000000 ∧
    parse_value "1,234.5".data (some "Million".data) 7 = (2469 / 2 : ℚ) * 1000000 :=
  inline_word_overrides_fallback "1,234.5".data "Million".data 55 7 1000000 (2469 / 2)
    (by decide) (by decide!)

/-- C2: the effective fallback multiplier for a table cell is the
column multiplier when the column has one (even on an excluded row,
since the lookup ignores the exclusion flag), else `1` on an excluded
row, else the table scale. -/
theorem effective_fallback_cases (cm : List (Nat × ℚ)) (ex : Bool) (tm : ℚ) (c : Nat) :
    (∀ m, lookupCol c cm = some m → effectiveFallback cm ex tm c = m) ∧
    (lookupCol c cm = none → ex = true → effectiveFallback cm ex tm c = 1) ∧
    (lookupCol c cm = none → ex = false → effectiveFallback cm ex tm c = tm) := by
  refine ⟨?_, ?_, ?_⟩
  · intro m hm
    simp [effectiveFallback, hm]
  · intro hn hex
    simp [effectiveFallback, hn, hex]
  · intro hn hex
    simp [effectiveFallback, hn, hex]

theorem effective_fallback_cases_witness :
    effectiveFallback [(1, 1000)] true 55 1 = 1000 :=
  (effective_fallback_cases [(1, 1000)] true 55 1).1 1000 (by decide)

/-- C3: free-text processing resolves every token with the constant
fallback multiplier `1`; it never consults the page-level context
multiplier (in particular it is invariant under changing the page
height, which is what the page-level multiplier's header region depends
on). -/
theorem freetext_fallback_is_one (st : Option (ℚ × Nat)) (pg : Nat) (p : Page) :
    processFreeText st pg p =
      (finditerNum (nonTableText p)).foldl
        (fun s tok => updateMax s (parse_value tok.raw tok.mword 1) pg) st ∧
    ∀ h : ℚ, processFreeText st pg ⟨h, p.words, p.tables⟩ = processFreeText st pg p := by
  constructor
  · simp only [processFreeText]
    split
    · rename_i hempty
      rw [hempty]
      rfl
    · rfl
  · intro h
    rfl

/-- C6: the context matcher takes the first left-to-right match of the
three surface patterns; a match capturing a non-lexicon word asserts no
multiplier, and the matcher yields the identity factor `1` when nothing
matches.  In particular, on a span whose first match captures the
non-lexicon word "units" while a later span would match the lexicon
word "millions", the first-match rule makes the result `1`. -/
theorem context_matcher_first_match :
    (∀ s : List Char, contextSearch s = none → contextFactorD s 1 = 1) ∧
    (∀ s w : List Char, contextSearch s = some w → lookupMult w = none →
      contextFactorD s 1 = 1) ∧
    contextSearch "(in units) see (in millions)".data = some "units".data ∧
    contextSearch "(in millions)".data = some "millions".data ∧
    lookupMult "units".data = none ∧
    lookupMult "millions".data = some 1000000 ∧
    contextFactorD "(in units) see (in millions)".data 1 = 1 := by
  refine ⟨?_, ?_, by decide, by decide, by decide, by decide, by decide⟩
  · intro s hs
    simp [contextFactorD, hs]
  · intro s w hs hw
    simp [contextFactorD, hs, hw]

theorem context_matcher_first_match_witness :
    contextFactorD "(in zillions)".data 1 = 1 :=
  context_matcher_first_match.2.1 "(in zillions)".data "zillions".data
    (by decide) (by decide)

/-- C8: the running maximum is updated only on a strictly greater
value — a tie leaves both the value and the first-seen page unchanged —
and processing any page carries the state monotonically upward
(`stateLE`), so the maximum after page `k` is at least the maximum
after page `k - 1`. -/
theorem running_max_monotone :
    (∀ (m : ℚ) (p pg : Nat), updateMax (some (m, p)) m pg = some (m, p)) ∧
    (∀ (st : Option (ℚ × Nat)) (pg : Nat) (page : Page),
      stateLE st (processPage st pg page)) := by
  constructor
  · intro m p pg
    simp [updateMax]
  · intro st pg page
    unfold processPage
    exact stateLE_trans
      (stateLE_foldl _ (fun s tb => stateLE_processTable page.words _ pg s tb) page.tables st)
      (stateLE_processFreeText _ pg page)

/-- C4 counterexample: the claim says no non-empty cell of any data row
is skipped, but a data row whose first cell is missing is skipped
whole: its non-empty cell `"5"` at column 1 is never visited, and a
document containing only that cell scans to "no value found". -/
theorem row_with_empty_first_cell_skipped :
    rowScannedCells [none, some "5".data] = [] ∧
    ([none, some "5".data] : Row).get? 1 = some (some "5".data) ∧
    "5".data ≠ [] ∧
    find_highest_value_in_pdf
      [⟨100, [], [([[some "h".data], [none, some "5".data]], ⟨0, 0, 50, 50⟩)]⟩] = none :=
  ⟨by decide, rfl, by decide, by decide!⟩

/-- C4 (amended): in every data row whose first cell is present and
non-empty, every non-empty cell is visited by the scanner; rows whose
first cell is missing or empty are skipped entirely. -/
theorem row_scan_covers_nonempty_cells (row : Row) (t0 : List Char) (rest : Row)
    (i : Nat) (ct : List Char) (hrow : row = some t0 :: rest) (ht0 : t0 ≠ [])
    (hget : row.get? i = some (some ct)) (hct : ct ≠ []) :
    (i, ct) ∈ rowScannedCells row := by
  subst hrow
  simp only [rowScannedCells, if_neg ht0]
  refine List.mem_filterMap.mpr ⟨(i, some ct), ?_, ?_⟩
  · have := enumFrom_mem_of_get? (some t0 :: rest) 0 i (some ct) hget
    simpa using this
  · simp [hct]

theorem row_scan_covers_nonempty_cells_witness :
    (1, "7".data) ∈ rowScannedCells [some "a".data, some "7".data] :=
  row_scan_covers_nonempty_cells _ "a".data [some "7".data] 1 "7".data rfl
    (by decide) (by decide) (by decide)

/-- C5 counterexample: the claim says the nearby-text collection keeps
exactly the words whose horizontal *span* falls within the box's left
and right edges; but the code tests only the word's left edge, so a
word reading "(in billions)" that starts inside the box and extends far
beyond its right edge is collected (table scale becomes 10⁹) while the
span-based collection of the claim would ignore it (table scale falls
back to the page scale 1). -/
theorem table_scale_span_cex :
    tableContextMultiplier [⟨"(in billions)".data, 50, 100, 500, 110⟩] ⟨0, 100, 100, 200⟩ 1
      = 1000000000 ∧
    specTableScale [⟨"(in billions)".data, 50, 100, 500, 110⟩] ⟨0, 100, 100, 200⟩ 1 = 1 ∧
    tableContextMultiplier [⟨"(in billions)".data, 50, 100, 500, 110⟩] ⟨0, 100, 100, 200⟩ 1
      ≠ specTableScale [⟨"(in billions)".data, 50, 100, 500, 110⟩] ⟨0, 100, 100, 200⟩ 1 :=
  ⟨by decide!, by decide!, by decide!⟩

theorem nearbyFold_filter (b : BBox) : ∀ (ws : List Word) (acc : List Char),
    ws.foldl (fun acc w =>
      if b.x0 ≤ w.x0 ∧ w.x0 ≤ b.x1 then
        if |w.top - b.top| < 80 ∨ |w.bottom - b.bottom| < 80 then acc ++ ' ' :: w.text
        else acc
      else acc) acc =
    (ws.filter (fun w =>
      decide ((b.x0 ≤ w.x0 ∧ w.x0 ≤ b.x1) ∧
        (|w.top - b.top| < 80 ∨ |w.bottom - b.bottom| < 80)))).foldl
      (fun acc w => acc ++ ' ' :: w.text) acc := by
  intro ws
  induction ws with
  | nil => intro acc; rfl
  | cons w t ih =>
    intro acc
    by_cases h1 : b.x0 ≤ w.x0 ∧ w.x0 ≤ b.x1
    · by_cases h2 : |w.top - b.top| < 80 ∨ |w.bottom - b.bottom| < 80
      · simp only [List.foldl_cons, if_pos h1, if_pos h2, List.filter_cons,
          decide_eq_true (And.intro h1 h2), if_pos]
        exact ih _
      · simp only [List.foldl_cons, if_pos h1, if_neg h2, List.filter_cons]
        rw [if_neg (by simp [h2])]
        exact ih _
    · simp only [List.foldl_cons, if_neg h1, List.filter_cons]
      rw [if_neg (by simp [h1])]
      exact ih _

/-- C5 (amended): the nearby text concatenates exactly the page words
whose *left edge* `x0` lies within the box's left and right edges
(inclusive) and whose top (resp. bottom) edge is within 80 units of the
box's top (resp. bottom) edge; when the context matcher yields no
lexicon match on it, the table scale equals the already-computed page
scale, and a lexicon match sets the matched factor. -/
theorem table_scale_nearby_characterization (ws : List Word) (b : BBox) (pm : ℚ) :
    nearbyText ws b =
      (ws.filter (fun w =>
        decide ((b.x0 ≤ w.x0 ∧ w.x0 ≤ b.x1) ∧
          (|w.top - b.top| < 80 ∨ |w.bottom - b.bottom| < 80)))).foldl
        (fun acc w => acc ++ ' ' :: w.text) [] ∧
    (contextSearch (nearbyText ws b) = none → tableContextMultiplier ws b pm = pm) ∧
    (∀ w, contextSearch (nearbyText ws b) = some w → lookupMult w = none →
      tableContextMultiplier ws b pm = pm) ∧
    (∀ w f, contextSearch (nearbyText ws b) = some w → lookupMult w = some f →
      tableContextMultiplier ws b pm = f) := by
  refine ⟨nearbyFold_filter b ws [], ?_, ?_, ?_⟩
  · intro hn
    simp [tableContextMultiplier, contextFactorD, hn]
  · intro w hw hl
    simp [tableContextMultiplier, contextFactorD, hw, hl]
  · intro w f hw hl
    simp [tableContextMultiplier, contextFactorD, hw, hl]

theorem table_scale_nearby_characterization_witness :
    tableContextMultiplier [⟨"(in thousands)".data, 10, 100, 90, 110⟩] ⟨0, 100, 100, 200⟩ 1
      = 1000 :=
  (table_scale_nearby_characterization
      [⟨"(in thousands)".data, 10, 100, 90, 110⟩] ⟨0, 100, 100, 200⟩ 1).2.2.2
    "thousands".data 1000 (by decide!) (by decide)

theorem processRow_no_tokens (cm : List (Nat × ℚ)) (tm : ℚ) (pg : Nat) (row : Row)
    (h : ∀ pc ∈ rowScannedCells row, finditerNum pc.2 = []) :
    ∀ s, processRow cm tm pg s row = s := by
  intro s
  cases row with
  | nil => rfl
  | cons c0 rest =>
    cases c0 with
    | none => rfl
    | some t0 =>
      simp only [processRow]
      split
      · rfl
      · exact foldl_fix _ _ (fun pc hpc s' => by rw [h pc hpc]; rfl) s

theorem processTable_no_tokens (ws : List Word) (pm : ℚ) (pg : Nat)
    (tb : TableGrid × BBox)
    (h : ∀ (hdr : Row) (rows : List Row), tb.1 = hdr :: rows → hdr ≠ [] →
      ∀ row ∈ rows, ∀ pc ∈ rowScannedCells row, finditerNum pc.2 = []) :
    ∀ s, processTable ws pm pg s tb = s := by
  intro s
  rcases htb : tb.1 with _ | ⟨hdr, rows⟩ <;> simp only [processTable, htb]
  split
  · rfl
  · rename_i hhdr
    exact foldl_fix _ _
      (fun row hrow s' => processRow_no_tokens _ _ _ row (h hdr rows htb hhdr row hrow) s') s

theorem processFreeText_no_tokens (pg : Nat) (p : Page)
    (h : finditerNum (nonTableText p) = []) :
    ∀ s, processFreeText s pg p = s := by
  intro s
  simp only [processFreeText, h]
  split <;> simp

theorem processPage_no_tokens (pg : Nat) (p : Page) (h : pageHasNoTokens p) :
    ∀ s, processPage s pg p = s := by
  intro s
  show processFreeText
      (p.tables.foldl (fun s tb => processTable p.words (get_page_level_multiplier p) pg s tb) s)
      pg p = s
  rw [foldl_fix _ _
    (fun tb htb s' => processTable_no_tokens _ _ _ tb
      (fun hdr rows heq hne => h.1 tb htb hdr rows heq hne) s') s]
  exact processFreeText_no_tokens pg p h.2 s

/-- C7: a document in which no number token is ever found scans to the
empty "not found" sentinel `none`, which is distinguishable from the
result for a document whose largest resolved value is exactly zero — a
lone free-text `"0"` reports `some (0, 1)`. -/
theorem no_tokens_gives_none :
    (∀ pages : List Page, (∀ p ∈ pages, pageHasNoTokens p) →
      find_highest_value_in_pdf pages = none) ∧
    find_highest_value_in_pdf [⟨100, [⟨"0".data, 0, 50, 10, 60⟩], []⟩] = some (0, 1) ∧
    some ((0 : ℚ), 1) ≠ (none : Option (ℚ × Nat)) := by
  refine ⟨?_, by decide!, by decide⟩
  intro pages h
  unfold find_highest_value_in_pdf
  exact foldl_fix _ _
    (fun pr hpr s => processPage_no_tokens pr.1 pr.2 (h pr.2 (enumFrom_snd_mem hpr)) s) none

theorem no_tokens_gives_none_witness :
    find_highest_value_in_pdf [⟨100, [⟨"hello".data, 0, 50, 10, 60⟩], []⟩] = none :=
  no_tokens_gives_none.1 _ (by
    intro p hp
    simp only [List.mem_singleton] at hp
    subst hp
    refine ⟨?_, by decide⟩
    intro tb htb
    simp at htb)

theorem firstSome_spec {α β : Type} (l : List α) (f : α → Option β) (b : β)
    (h : firstSome l f = some b) : ∃ a ∈ l, f a = some b := by
  induction l with
  | nil => exact absurd h (by simp [firstSome])
  | cons a t ih =>
    simp only [firstSome] at h
    cases hfa : f a with
    | some b' =>
      rw [hfa] at h
      cases h
      exact ⟨a, List.mem_cons_self _ _, hfa⟩
    | none =>
      rw [hfa] at h
      obtain ⟨a', ha', hfa'⟩ := ih h
      exact ⟨a', List.mem_cons_of_mem _ ha', hfa'⟩

theorem startsWithCI_toLower : ∀ (p s : List Char), startsWithCI p s = true →
    toLowerL (s.take p.length) = toLowerL p := by
  intro p
  induction p with
  | nil => intro s _; rfl
  | cons pc pt ih =>
    intro s h
    cases s with
    | nil => exact absurd h (by simp [startsWithCI])
    | cons c ct =>
      simp only [startsWithCI, Bool.and_eq_true, decide_eq_true_eq] at h
      obtain ⟨h1, h2⟩ := h
      simp only [List.length_cons, List.take_succ_cons, toLowerL, List.map_cons]
      exact congrArg₂ List.cons h1 (ih ct h2)

theorem tryScaleIn_spec : ∀ (ws : List (List Char)) (s w r : List Char),
    tryScaleIn ws s = some (w, r) →
    ∃ sw ∈ ws, startsWithCI sw s = true ∧ w = s.take sw.length := by
  intro ws
  induction ws with
  | nil => intro s w r h; exact absurd h (by simp [tryScaleIn])
  | cons sw swt ih =>
    intro s w r h
    simp only [tryScaleIn] at h
    split at h
    · rename_i hcond
      cases h
      exact ⟨sw, List.mem_cons_self _ _, (Bool.and_eq_true _ _).mp hcond |>.1, rfl⟩
    · obtain ⟨sw', hm, hs, hw⟩ := ih s w r h
      exact ⟨sw', List.mem_cons_of_mem _ hm, hs, hw⟩

theorem scale_words_lowercase : ∀ sw ∈ SCALE_WORDS, toLowerL sw = sw := by decide

theorem tailMatch_mword (s4 : List Char) (mw : Option (List Char)) (r : List Char)
    (h : tailMatch s4 = some (mw, r)) (w : List Char) (hw : mw = some w) :
    toLowerL w ∈ SCALE_WORDS := by
  subst hw
  simp only [tailMatch] at h
  split at h
  · rename_i w' rest htry
    cases h
    obtain ⟨sw, hsw, hci, hww⟩ := tryScaleIn_spec _ _ _ _ htry
    rw [hww, startsWithCI_toLower sw _ hci, scale_words_lowercase sw hsw]
    exact hsw
  · split at h
    · simp at h
    · split at h
      · split at h
        · exact Option.noConfusion h
        · simp at h
      · simp at h

theorem matchNumberAt_mword (s : List Char) (tok : NumTok) (r : List Char)
    (h : matchNumberAt s = some (tok, r)) :
    ∀ w, tok.mword = some w → toLowerL w ∈ SCALE_WORDS := by
  intro w hw
  simp only [matchNumberAt] at h
  obtain ⟨ic, hic, h2⟩ := firstSome_spec _ _ _ h
  obtain ⟨fc, hfc, h3⟩ := firstSome_spec _ _ _ h2
  cases htail : tailMatch fc.2 with
  | none => rw [htail] at h3; cases h3
  | some p =>
    obtain ⟨mw, rest⟩ := p
    rw [htail] at h3
    cases h3
    exact tailMatch_mword _ _ _ htail w hw

theorem finditerAux_mem : ∀ (fuel : Nat) (s : List Char) (tok : NumTok),
    tok ∈ finditerAux fuel s → ∃ u r, matchNumberAt u = some (tok, r) := by
  intro fuel
  induction fuel with
  | zero => intro s tok h; cases h
  | succ n ih =>
    intro s tok h
    simp only [finditerAux] at h
    cases hm : matchNumberAt s with
    | some p =>
      obtain ⟨t1, r1⟩ := p
      rw [hm] at h
      rcases List.mem_cons.mp h with h1 | h2
      · subst h1
        exact ⟨s, r1, hm⟩
      · exact ih r1 tok h2
    | none =>
      rw [hm] at h
      cases s with
      | nil => cases h
      | cons c t => exact ih t tok h

/-- C9: the number extractor attaches an inline scale word only when
the adjacent word is one of the four singular forms (case-insensitive);
a plural form immediately following a number, as in `"5 millions"`,
yields a token with no inline scale word. -/
theorem inline_scale_words_singular :
    (∀ (s : List Char) (tok : NumTok), tok ∈ finditerNum s →
      ∀ w, tok.mword = some w → toLowerL w ∈ SCALE_WORDS) ∧
    finditerNum "5 millions".data = [⟨"5".data, none⟩] := by
  constructor
  · intro s tok hmem w hw
    obtain ⟨u, r, hu⟩ := finditerAux_mem (s.length + 1) s tok hmem
    exact matchNumberAt_mword u tok r hu w hw
  · decide

theorem inline_scale_words_singular_witness :
    toLowerL "Million".data ∈ SCALE_WORDS :=
  inline_scale_words_singular.1 "5 Million".data ⟨"5".data, some "Million".data⟩
    (by decide) "Million".data rfl

theorem pyIsSpace_cases {c : Char} (h : pyIsSpace c = true) :
    c = ' ' ∨ c = '\t' ∨ c = '\n' ∨ c = '\r' ∨ c = '\x0b' ∨ c = '\x0c' := by
  simpa [pyIsSpace, or_assoc] using h

theorem digit_not_space {c : Char} (h : c.isDigit = true) : pyIsSpace c = false := by
  cases hps : pyIsSpace c
  · rfl
  · rcases pyIsSpace_cases hps with h1 | h1 | h1 | h1 | h1 | h1 <;>
      (subst h1; exact absurd h (by decide))

theorem digit_passes_clean {c : Char} (h : c.isDigit = true) :
    (!(c == '$' || c == ',')) = true := by
  have h1 : c ≠ '$' := fun he => absurd h (by subst he; decide)
  have h2 : c ≠ ',' := fun he => absurd h (by subst he; decide)
  simp [h1, h2]

theorem digit_passes_underscore {c : Char} (h : c.isDigit = true) :
    (!(c == '_')) = true := by
  have h1 : c ≠ '_' := fun he => absurd h (by subst he; decide)
  simp [h1]

theorem space_passes_clean {c : Char} (h : pyIsSpace c = true) :
    (!(c == '$' || c == ',')) = true := by
  rcases pyIsSpace_cases h with h1 | h1 | h1 | h1 | h1 | h1 <;> (subst h1; decide)

theorem takeWhile_append_all {p : Char → Bool} : ∀ (l r : List Char),
    (∀ x ∈ l, p x = true) → (l ++ r).takeWhile p = l ++ r.takeWhile p := by
  intro l
  induction l with
  | nil => intro r _; rfl
  | cons c t ih =>
    intro r h
    have hc : p c = true := h c (List.mem_cons_self _ _)
    simp only [List.cons_append, List.takeWhile_cons, hc, if_true]
    rw [ih r (fun x hx => h x (List.mem_cons_of_mem _ hx))]

theorem dropWhile_all_false {p : Char → Bool} : ∀ (l : List Char),
    (∀ x ∈ l, p x = false) → l.dropWhile p = l := by
  intro l h
  cases l with
  | nil => rfl
  | cons c t => simp [List.dropWhile_cons, h c (List.mem_cons_self _ _)]

theorem dropWhile_append_all {p : Char → Bool} : ∀ (l r : List Char),
    (∀ x ∈ l, p x = true) → (l ++ r).dropWhile p = r.dropWhile p := by
  intro l
  induction l with
  | nil => intro r _; rfl
  | cons c t ih =>
    intro r h
    simp only [List.cons_append, List.dropWhile_cons, h c (List.mem_cons_self _ _), if_true]
    exact ih r (fun x hx => h x (List.mem_cons_of_mem _ hx))

theorem stripL_concat (ws body : List Char)
    (hws : ∀ x ∈ ws, pyIsSpace x = true) (hbody : ∀ x ∈ body, pyIsSpace x = false) :
    stripL (ws ++ body) = body := by
  unfold stripL
  rw [dropWhile_append_all ws body hws, dropWhile_all_false body hbody,
    dropWhile_all_false _ (fun x hx => hbody x (List.mem_reverse.mp hx)),
    List.reverse_reverse]

theorem countdownFrom_mem : ∀ {n k : Nat}, k ∈ countdownFrom n → 1 ≤ k ∧ k ≤ n := by
  intro n
  induction n with
  | zero => intro k h; cases h
  | succ m ih =>
    intro k h
    rcases List.mem_cons.mp h with h1 | h2
    · subst h1; omega
    · have := ih h2; omega

theorem take_le_takeWhile {p : Char → Bool} : ∀ (l : List Char) (n : Nat),
    n ≤ (l.takeWhile p).length → l.take n = (l.takeWhile p).take n := by
  intro l
  induction l with
  | nil => intro n _; simp
  | cons c t ih =>
    intro n hn
    cases hp : p c with
    | true =>
      cases n with
      | zero => simp
      | succ m =>
        rw [List.takeWhile_cons, hp] at hn ⊢
        simp only [if_true, List.take_succ_cons, List.length_cons] at hn ⊢
        rw [ih m (Nat.le_of_succ_le_succ hn)]
    | false =>
      rw [List.takeWhile_cons, hp] at hn
      simp at hn
      subst hn
      simp

theorem take_digits {s : List Char} {n : Nat} (hn : n ≤ digitRun s) :
    ∀ x ∈ s.take n, x.isDigit = true := by
  intro x hx
  rw [take_le_takeWhile s n hn] at hx
  exact List.mem_takeWhile_imp (List.mem_of_mem_take hx)

theorem digitRun_le_length : ∀ s : List Char, digitRun s ≤ s.length := by
  intro s
  unfold digitRun
  induction s with
  | nil => simp
  | cons c t ih =>
    rw [List.takeWhile_cons]
    split
    · simpa using ih
    · simp

theorem take_nonempty {s : List Char} {n : Nat} (h1 : 1 ≤ n) (hn : n ≤ digitRun s) :
    s.take n ≠ [] := by
  intro hempty
  have hlen := congrArg List.length hempty
  rw [List.length_take] at hlen
  have hds : digitRun s ≤ s.length := digitRun_le_length s
  simp only [List.length_nil] at hlen
  omega

theorem commaRepsAux_chars : ∀ (fuel : Nat) (s c r : List Char),
    (c, r) ∈ commaRepsAux fuel s → ∀ x ∈ c, x.isDigit = true ∨ x = ',' := by
  intro fuel
  induction fuel with
  | zero =>
    intro s c r h x hx
    simp only [commaRepsAux, List.mem_singleton, Prod.mk.injEq] at h
    rw [h.1] at hx
    cases hx
  | succ n ih =>
    intro s c r h x hx
    simp only [commaRepsAux] at h
    split at h
    · split at h
      · rename_i t hcond
        rcases List.mem_append.mp h with hl | hr
        · obtain ⟨⟨c', r'⟩, hc', heq⟩ := List.mem_map.mp hl
          simp only [Prod.mk.injEq] at heq
          rw [← heq.1] at hx
          rcases List.mem_cons.mp hx with hx1 | hx2
          · exact Or.inr hx1
          · rcases List.mem_append.mp hx2 with hx3 | hx4
            · exact Or.inl (by
                have := hcond.2
                rw [List.all_eq_true] at this
                exact this x hx3)
            · exact ih _ c' r' hc' x hx4
        · simp only [List.mem_singleton, Prod.mk.injEq] at hr
          rw [hr.1] at hx
          cases hx
      · simp only [List.mem_singleton, Prod.mk.injEq] at h
        rw [h.1] at hx
        cases hx
    · simp only [List.mem_singleton, Prod.mk.injEq] at h
      rw [h.1] at hx
      cases hx

theorem intCands_chars : ∀ (s c r : List Char), (c, r) ∈ intCands s →
    (∀ x ∈ c, x.isDigit = true ∨ x = ',') ∧ ∃ d t, c = d :: t ∧ d.isDigit = true := by
  intro s c r h
  rcases List.mem_append.mp h with hA | hB
  · obtain ⟨n, hn, hmem⟩ := List.mem_flatMap.mp hA
    obtain ⟨⟨g, r'⟩, hg, heq⟩ := List.mem_map.mp hmem
    simp only [Prod.mk.injEq] at heq
    obtain ⟨h1n, h2n⟩ := countdownFrom_mem hn
    have hnd : n ≤ digitRun s := le_trans h2n (min_le_right 3 (digitRun s))
    have hdig : ∀ x ∈ s.take n, x.isDigit = true := take_digits hnd
    have hgc := commaRepsAux_chars _ _ _ _ hg
    obtain ⟨d, t, hdt⟩ : ∃ d t, s.take n = d :: t := by
      cases hc : s.take n with
      | nil => exact absurd hc (take_nonempty h1n hnd)
      | cons d t => exact ⟨d, t, rfl⟩
    constructor
    · intro x hx
      rw [← heq.1] at hx
      rcases List.mem_append.mp hx with hx1 | hx2
      · exact Or.inl (hdig x hx1)
      · exact hgc x hx2
    · refine ⟨d, t ++ g, ?_, ?_⟩
      · rw [← heq.1, hdt, List.cons_append]
      · exact hdig d (by rw [hdt]; exact List.mem_cons_self _ _)
  · obtain ⟨k, hk, heq⟩ := List.mem_map.mp hB
    simp only [Prod.mk.injEq] at heq
    obtain ⟨h1k, h2k⟩ := countdownFrom_mem hk
    have hdig : ∀ x ∈ s.take k, x.isDigit = true := take_digits h2k
    obtain ⟨d, t, hdt⟩ : ∃ d t, s.take k = d :: t := by
      cases hc : s.take k with
      | nil => exact absurd hc (take_nonempty h1k h2k)
      | cons d t => exact ⟨d, t, rfl⟩
    constructor
    · intro x hx
      rw [← heq.1] at hx
      exact Or.inl (hdig x hx)
    · exact ⟨d, t, by rw [← heq.1, hdt], hdig d (by rw [hdt]; exact List.mem_cons_self _ _)⟩

theorem fracCands_chars : ∀ (s fc r : List Char), (fc, r) ∈ fracCands s →
    fc = [] ∨ ∃ ds, fc = '.' :: ds ∧ ds ≠ [] ∧ ∀ x ∈ ds, x.isDigit = true := by
  intro s fc r h
  unfold fracCands at h
  split at h
  · rename_i t
    split at h
    · simp only [List.mem_singleton, Prod.mk.injEq] at h
      exact Or.inl h.1
    · rename_i hds
      rcases List.mem_cons.mp h with h1 | h2
      · simp only [Prod.mk.injEq] at h1
        exact Or.inr ⟨t.takeWhile Char.isDigit, h1.1, hds,
          fun x hx => List.mem_takeWhile_imp hx⟩
      · simp only [List.mem_singleton, Prod.mk.injEq] at h2
        exact Or.inl h2.1
  · simp only [List.mem_singleton, Prod.mk.injEq] at h
    exact Or.inl h.1

theorem dollarPart_chars (s : List Char) : ∀ x ∈ dollarPart s, x = '$' := by
  intro x hx
  unfold dollarPart at hx
  split at hx
  · simpa using hx
  · cases hx

theorem matchNumberAt_shape (s : List Char) (tok : NumTok) (r : List Char)
    (h : matchNumberAt s = some (tok, r)) :
    ∃ dollar ws1 ic fc : List Char,
      tok.raw = dollar ++ ws1 ++ (ic ++ fc) ∧
      (∀ x ∈ dollar, x = '$') ∧ (∀ x ∈ ws1, pyIsSpace x = true) ∧
      ((∀ x ∈ ic, x.isDigit = true ∨ x = ',') ∧ ∃ d t, ic = d :: t ∧ d.isDigit = true) ∧
      (fc = [] ∨ ∃ ds, fc = '.' :: ds ∧ ds ≠ [] ∧ ∀ x ∈ ds, x.isDigit = true) := by
  simp only [matchNumberAt] at h
  obtain ⟨ic, hic, h2⟩ := firstSome_spec _ _ _ h
  obtain ⟨fc, hfc, h3⟩ := firstSome_spec _ _ _ h2
  cases htail : tailMatch fc.2 with
  | none => rw [htail] at h3; cases h3
  | some p =>
    obtain ⟨mw, rest⟩ := p
    rw [htail] at h3
    cases h3
    obtain ⟨ic1, ic2⟩ := ic
    obtain ⟨fc1, fc2⟩ := fc
    refine ⟨dollarPart s, List.takeWhile pyIsSpace (List.drop (dollarPart s).length s),
      ic1, fc1, ?_, dollarPart_chars s, ?_, ?_, ?_⟩
    · simp [List.append_assoc]
    · intro x hx
      exact List.mem_takeWhile_imp hx
    · exact intCands_chars _ _ _ hic
    · exact fracCands_chars _ _ _ hfc

theorem splitSign_digit {d : Char} (l : List Char) (hd : d.isDigit = true) :
    splitSign (d :: l) = (1, d :: l) := by
  unfold splitSign
  split
  · rename_i heq
    injection heq with h1 _
    exact absurd hd (by subst h1; decide)
  · rename_i heq
    injection heq with h1 _
    exact absurd hd (by subst h1; decide)
  · rfl

theorem fracSplit_nil : fracSplit [] = ([], []) := rfl

theorem fracSplit_dot (ds : List Char) :
    fracSplit ('.' :: ds) =
      (ds.takeWhile Char.isDigit, ds.drop (ds.takeWhile Char.isDigit).length) := rfl

theorem clean_raw (dollar ws1 ic fc : List Char)
    (hd : ∀ x ∈ dollar, x = '$') (hws : ∀ x ∈ ws1, pyIsSpace x = true)
    (hic : (∀ x ∈ ic, x.isDigit = true ∨ x = ',') ∧ ∃ d t, ic = d :: t ∧ d.isDigit = true)
    (hfc : fc = [] ∨ ∃ ds, fc = '.' :: ds ∧ ds ≠ [] ∧ ∀ x ∈ ds, x.isDigit = true) :
    ∃ icd : List Char, icd ≠ [] ∧ (∀ x ∈ icd, x.isDigit = true) ∧
      clean_number_string (dollar ++ ws1 ++ (ic ++ fc)) = icd ++ fc := by
  refine ⟨ic.filter (fun c => !(c == '$' || c == ',')), ?_, ?_, ?_⟩
  · obtain ⟨d, t, hdt, hdd⟩ := hic.2
    rw [hdt, List.filter_cons, if_pos (digit_passes_clean hdd)]
    exact List.cons_ne_nil _ _
  · intro x hx
    have hxic := List.mem_of_mem_filter hx
    have hxp := List.of_mem_filter hx
    rcases hic.1 x hxic with hdig | hcomma
    · exact hdig
    · subst hcomma
      simp at hxp
  · unfold clean_number_string
    rw [List.filter_append, List.filter_append]
    have h1 : dollar.filter (fun c => !(c == '$' || c == ',')) = [] := by
      rw [List.filter_eq_nil_iff]
      intro a ha
      rw [hd a ha]
      decide
    have h2 : ws1.filter (fun c => !(c == '$' || c == ',')) = ws1 :=
      List.filter_eq_self.mpr (fun a ha => space_passes_clean (hws a ha))
    have h3 : fc.filter (fun c => !(c == '$' || c == ',')) = fc := by
      rcases hfc with hfc0 | ⟨ds, hds, _, hdsdig⟩
      · rw [hfc0]; rfl
      · rw [hds, List.filter_cons]
        rw [if_pos (by decide), List.filter_eq_self.mpr
          (fun a ha => digit_passes_clean (hdsdig a ha))]
    rw [List.filter_append, h1, h2, h3, List.nil_append]
    refine stripL_concat ws1 _ hws ?_
    intro x hx
    rcases List.mem_append.mp hx with hx1 | hx2
    · have := List.mem_of_mem_filter hx1
      rcases hic.1 x this with hdig | hcomma
      · exact digit_not_space hdig
      · have hxp := List.of_mem_filter hx1
        subst hcomma
        simp at hxp
    · rcases hfc with hfc0 | ⟨ds, hds, _, hdsdig⟩
      · rw [hfc0] at hx2; cases hx2
      · rw [hds] at hx2
        rcases List.mem_cons.mp hx2 with h4 | h5
        · subst h4; decide
        · exact digit_not_space (hdsdig x h5)

theorem parseDecimal_digit_frac (icd fc : List Char)
    (hne : icd ≠ []) (hdig : ∀ x ∈ icd, x.isDigit = true)
    (hfc : fc = [] ∨ ∃ ds, fc = '.' :: ds ∧ ds ≠ [] ∧ ∀ x ∈ ds, x.isDigit = true) :
    (parseDecimal (icd ++ fc)).isSome = true := by
  obtain ⟨d, t, hdt⟩ : ∃ d t, icd = d :: t := by
    cases icd with
    | nil => exact absurd rfl hne
    | cons d t => exact ⟨d, t, rfl⟩
  have hdd : d.isDigit = true := hdig d (by rw [hdt]; exact List.mem_cons_self _ _)
  have hbody : ∀ x ∈ icd ++ fc, pyIsSpace x = false := by
    intro x hx
    rcases List.mem_append.mp hx with h1 | h2
    · exact digit_not_space (hdig x h1)
    · rcases hfc with hfc0 | ⟨ds, hds, _, hdsdig⟩
      · rw [hfc0] at h2; cases h2
      · rw [hds] at h2
        rcases List.mem_cons.mp h2 with h3 | h4
        · subst h3; decide
        · exact digit_not_space (hdsdig x h4)
  have hstrip : stripL (icd ++ fc) = icd ++ fc := by
    have := stripL_concat [] (icd ++ fc) (by intro x hx; cases hx) hbody
    simpa using this
  have hfilter : (icd ++ fc).filter (fun c => !(c == '_')) = icd ++ fc := by
    refine List.filter_eq_self.mpr ?_
    intro a ha
    rcases List.mem_append.mp ha with h1 | h2
    · exact digit_passes_underscore (hdig a h1)
    · rcases hfc with hfc0 | ⟨ds, hds, _, hdsdig⟩
      · rw [hfc0] at h2; cases h2
      · rw [hds] at h2
        rcases List.mem_cons.mp h2 with h3 | h4
        · subst h3; decide
        · exact digit_passes_underscore (hdsdig a h4)
  have hsplit : splitSign (icd ++ fc) = (1, icd ++ fc) := by
    rw [hdt, List.cons_append]
    exact splitSign_digit (t ++ fc) hdd
  have htwfc : fc.takeWhile Char.isDigit = [] := by
    rcases hfc with hfc0 | ⟨ds, hds, _, _⟩
    · rw [hfc0]; rfl
    · rw [hds, List.takeWhile_cons, if_neg (by decide)]
  have htw : (icd ++ fc).takeWhile Char.isDigit = icd :=
    by rw [takeWhile_append_all icd fc hdig, htwfc, List.append_nil]
  simp only [parseDecimal, hstrip, hfilter, hsplit, htw, List.drop_left]
  rcases hfc with hfc0 | ⟨ds, hds, hdsne, hdsdig⟩
  · subst hfc0
    simp [fracSplit_nil, hne]
  · subst hds
    rw [fracSplit_dot, List.takeWhile_eq_self_iff.mpr hdsdig, List.drop_length]
    simp [hdsne]

/-- C10: every token the number scanner produces has a raw literal
whose cleaned form parses as a decimal, so the parse-failure branch of
`parse_value` that returns zero is unreachable for scanner-produced
tokens. -/
theorem scanner_tokens_always_parse (s : List Char) (tok : NumTok)
    (hmem : tok ∈ finditerNum s) :
    (parseDecimal (clean_number_string tok.raw)).isSome = true := by
  obtain ⟨u, r, hu⟩ := finditerAux_mem (s.length + 1) s tok hmem
  obtain ⟨dollar, ws1, ic, fc, hraw, hd, hws, hic, hfc⟩ := matchNumberAt_shape u tok r hu
  obtain ⟨icd, hne, hdig, hclean⟩ := clean_raw dollar ws1 ic fc hd hws hic hfc
  rw [hraw, hclean]
  exact parseDecimal_digit_frac icd fc hne hdig hfc

theorem scanner_tokens_always_parse_witness :
    (parseDecimal (clean_number_string "$1,234.56".data)).isSome = true :=
  scanner_tokens_always_parse "$1,234.56 million".data
    ⟨"$1,234.56".data, some "million".data⟩ (by decide)

end Pdf
